import Mathlib

/-!
Verification of the thrift compiler generation-driver slice
(`compiler/cpp/src/thrift/generate/t_generator.h`).

The C++ source is shallowly embedded: strings become `List Char` (with
`String` wrappers for the examples), the in-place string mutations of the
case-transform helpers become explicit index-passing loops, the
content-based-conditional-update output stream becomes a pure state
transition over a filesystem map together with a trace of the filesystem
operations it performs, and the unconditional `in[0]` accesses are embedded
fallibly through `Option`.  Bodies that live in `t_generator.cc` (not part
of this slice) are modelled from the specification and marked as such in
their doc comments.
-/

namespace ThriftGen

/-! Section: Case transforms (t_generator.h, lines 247-311) -/

/-- Embeds `t_generator::capitalize` (t_generator.h:247-250):
`in[0] = toupper(in[0]); return in;`.  The unconditional first-character
access is embedded fallibly: `none` when the index 0 access is out of
bounds, i.e. on the empty string. -/
def capitalize (s : List Char) : Option (List Char) :=
  s.head?.map fun c => s.set 0 c.toUpper

/-- Embeds `t_generator::decapitalize` (t_generator.h:251-254):
`in[0] = tolower(in[0]); return in;`, fallible like `capitalize`. -/
def decapitalize (s : List Char) : Option (List Char) :=
  s.head?.map fun c => s.set 0 c.toLower

/-- Number of uppercase characters of a list; termination measure for
`underscoreLoop`. -/
def countUpper (l : List Char) : Nat := l.countP (fun c => c.isUpper)

/-- Embeds the loop of `t_generator::underscore` (t_generator.h:278-283):
`for (size_t i = 1; i < in.size(); ++i) { if (isupper(in[i])) {
in[i] = tolower(in[i]); in.insert(i, "_"); } }`.
One call is one loop iteration at index `i`: when `in[i]` is uppercase the
character is lowercased in place and an underscore is inserted at `i`
(shifting the lowered character to `i+1`), and the loop continues at `i+1`
exactly as the `++i` of the `for` statement does; the lowered character is
then examined (and skipped) by the following iteration. -/
def underscoreLoop (s : List Char) (i : Nat) : List Char :=
  if h : i < s.length then
    if hu : s[i].isUpper then
      underscoreLoop (s.take i ++ '_' :: s[i].toLower :: s.drop (i + 1)) (i + 1)
    else
      underscoreLoop s (i + 1)
  else s
termination_by (countUpper (s.drop i), s.length - i)
decreasing_by
  · apply Prod.Lex.left
    have hdrop : s.drop i = s[i] :: s.drop (i + 1) := List.drop_eq_getElem_cons h
    have htk : (s.take i).length = i := by
      simp [List.length_take]
      omega
    have h1 : (s.take i ++ '_' :: s[i].toLower :: s.drop (i + 1)).drop (i + 1)
        = s[i].toLower :: s.drop (i + 1) := by
      rw [List.drop_append_eq_append_drop]
      rw [List.drop_eq_nil_of_le (by omega), htk]
      simp
    rw [h1, hdrop]
    simp only [countUpper, List.countP_cons]
    have hcl : (s[i].toLower).isUpper = false := by
      have hb : 65 ≤ s[i].toNat ∧ s[i].toNat ≤ 90 := by
        have hu' := hu
        simp [Char.isUpper] at hu'
        obtain ⟨h1, h2⟩ := hu'
        exact ⟨UInt32.le_toNat_of_le (by decide) h1, UInt32.toNat_le_of_le (by decide) h2⟩
      have hl : s[i].toLower = Char.ofNat (s[i].toNat + 32) := by
        simp [Char.toLower]
        omega
      have hv : (s[i].toNat + 32).isValidChar := by
        left
        show s[i].toNat + 32 < 0xd800
        omega
      have ht : (s[i].toLower).toNat = s[i].toNat + 32 := by
        rw [hl, Char.ofNat, dif_pos hv]
        simp [Char.ofNatAux, Char.toNat, UInt32.toNat, UInt32.ofNat']
      simp [Char.isUpper]
      intro _
      rw [← UInt32.not_le]
      intro hle2
      have h3 : (s[i].toLower).val.toNat ≤ 90 :=
        UInt32.toNat_le_of_le (m := 90) (by decide) hle2
      rw [Char.toNat] at ht
      omega
    simp [hu, hcl]
  · have hdrop : s.drop i = s[i] :: s.drop (i + 1) := List.drop_eq_getElem_cons h
    apply Prod.Lex.right'
    · rw [hdrop]
      simp only [countUpper, List.countP_cons]
      simp [hu]
    · omega

/-- Embeds `t_generator::underscore` (t_generator.h:276-285):
`in[0] = tolower(in[0]);` followed by the scan `underscoreLoop` from
index 1.  The first-character access is embedded fallibly, like
`capitalize`. -/
def underscore (s : List Char) : Option (List Char) :=
  s.head?.map fun c => underscoreLoop (s.set 0 c.toLower) 1

/-- Restates, following the words of the spec, the action of `underscore`
on the characters after the first: scanning left to right, each
encountered uppercase character is replaced by an underscore followed by
that character lowercased; every other character passes through
unchanged.  Used to compare the embedded loop against the specification. -/
def underscoreSpec : List Char → List Char
  | [] => []
  | c :: rest =>
    if c.isUpper then '_' :: c.toLower :: underscoreSpec rest
    else c :: underscoreSpec rest

/-- String-valued wrapper of `underscore`, for the concrete examples. -/
def underscoreStr (s : String) : Option String :=
  (underscore s.data).map String.mk

/-- Embeds the loop of `t_generator::camelcase` (t_generator.h:293-311).
The first argument is the `bool underscore` flag of the C++ loop: an
underscore character sets it and is consumed; a character seen while the
flag is set is emitted uppercased and clears it; every other character is
emitted unchanged. -/
def camelcaseGo (flag : Bool) : List Char → List Char
  | [] => []
  | c :: rest =>
    if c = '_' then camelcaseGo true rest
    else if flag then c.toUpper :: camelcaseGo false rest
    else c :: camelcaseGo flag rest

/-- Embeds `t_generator::camelcase` (t_generator.h:293-311): the scan
starts with the flag clear. -/
def camelcase (s : List Char) : List Char := camelcaseGo false s

/-- String-valued wrapper of `camelcase`, for the concrete examples. -/
def camelcaseStr (s : String) : String := String.mk (camelcase s.data)

/-! Section: String escaping (t_generator.h, lines 52-56 and 95) -/

/-- Embeds the `escape_` table filled by the `t_generator` constructor
(t_generator.h:52-56): the five special characters and their two-character
escape sequences; `none` for every character outside the table. -/
def escapeChar (c : Char) : Option (List Char) :=
  if c = '\n' then some ['\\', 'n']
  else if c = '\r' then some ['\\', 'r']
  else if c = '\t' then some ['\\', 't']
  else if c = '"' then some ['\\', '"']
  else if c = '\\' then some ['\\', '\\']
  else none

/-- The five characters of the `escape_` table. -/
def specialChars : List Char := ['\n', '\r', '\t', '"', '\\']

/-- Modelled from the spec: the body of `t_generator::escape_string`
lives in t_generator.cc, which is not part of this slice; per the spec it
"replaces every occurrence of a mapped character with its escape
sequence", character by character, using the `escape_` table embedded as
`escapeChar`. -/
def escape_string : List Char → List Char
  | [] => []
  | c :: rest =>
    (match escapeChar c with
     | some e => e
     | none => [c]) ++ escape_string rest

/-- Decodes one escape code character back to the character it stands
for; the inverse table of `escapeChar`, used to state the round-trip part
of the escaping claim. -/
def unescapeChar (c : Char) : Char :=
  if c = 'n' then '\n'
  else if c = 'r' then '\r'
  else if c = 't' then '\t'
  else c

/-- Decoder for escaped strings: a backslash consumes the following
character and maps it back through `unescapeChar`; everything else passes
through.  Spec-side definition for the round-trip part of the escaping
claim. -/
def unescape : List Char → List Char
  | [] => []
  | '\\' :: c :: rest => unescapeChar c :: unescape rest
  | c :: rest => c :: unescape rest

/-! Section: Temporary name allocation (t_generator.h, lines 186-190) -/

/-- Embeds `t_generator::tmp` (t_generator.h:186-190):
`out << name << tmp_++;` — the state `tmpCounter` is the member `tmp_`,
threaded explicitly; the stream insertion of the counter is its decimal
representation. -/
def tmp (name : String) (tmpCounter : Nat) : String × Nat :=
  (name ++ Nat.repr tmpCounter, tmpCounter + 1)

/-- The constructor initialisation `tmp_ = 0` (t_generator.h:48). -/
def tmpInit : Nat := 0

/-- The list of strings returned by `n` successive calls of `tmp name`
starting from counter state `st`. -/
def tmpCalls (name : String) (st : Nat) : Nat → List String
  | 0 => []
  | Nat.succ k => (tmp name st).1 :: tmpCalls name (tmp name st).2 k

/-- Big-endian significant decimal digits of a natural number (the digit
sequence that `Nat.repr` prints); helper for proving the distinctness of
the names produced by `tmp`. -/
def sigDigits (n : Nat) : List Nat :=
  if n < 10 then [n] else sigDigits (n / 10) ++ [n % 10]
decreasing_by
  exact Nat.div_lt_self (by omega) (by omega)

/-- Value of a big-endian digit list. -/
def decBE (l : List Nat) : Nat := l.foldl (fun a d => a * 10 + d) 0

/-- Numeric value of a decimal digit character. -/
def charVal (c : Char) : Nat := c.toNat - 48

/-- Value of a big-endian string of decimal digit characters; decoder
used to invert `Nat.repr`. -/
def decodeDec (l : List Char) : Nat := l.foldl (fun a c => a * 10 + charVal c) 0


/-! Section: Idempotent output writer
(`template_ofstream_with_content_based_conditional_update`,
t_generator.h, lines 388-461) -/

/-- The filesystem seen by the output writer: each path maps to the file
content at that path, or `none` when no file exists there.  A file is
readable exactly when it exists (`is_readable` probes by opening for
reading). -/
abbrev FS := String → Option String

/-- One filesystem operation performed by the output writer, recorded so
the claims about "no write" and "no comparison" can be stated: `probe`
is the `is_readable` existence check, `read` the read of the old file
contents, `write` the replacement of the file contents. -/
inductive FsOp where
  | probe : String → FsOp
  | read : String → FsOp
  | write : String → String → FsOp
deriving DecidableEq

/-- State of `template_ofstream_with_content_based_conditional_update`:
the target path `output_file_path`, the buffered contents `buf` (the
`ostringstream` buffer returned by `str()`), and the `contents_written`
flag. -/
structure CondWriter where
  output_file_path : String
  buf : String
  contents_written : Bool
deriving DecidableEq

/-- Embeds `is_readable` (t_generator.h:453-455): in the pure filesystem
model a path is readable exactly when a file exists there. -/
def is_readable (fs : FS) (p : String) : Bool := (fs p).isSome

/-- Embeds `dump` (t_generator.h:434-447): writes the buffer to the
target path (replacing any existing file), clears the buffer
(`clear_buf`) and sets `contents_written`.  The model filesystem write
always succeeds; the `::failure` path of the C++ code models a fatal
filesystem error outside this pure model. -/
def dump (w : CondWriter) (fs : FS) : CondWriter × FS × List FsOp :=
  (⟨w.output_file_path, "", true⟩,
   fun p => if p = w.output_file_path then some w.buf else fs p,
   [FsOp.write w.output_file_path w.buf])

/-- Embeds `close` (t_generator.h:408-431).  The early return fires when
`contents_written` is set or the path is empty.  Otherwise: when the path
is not readable (`none` — no file exists) the buffer is dumped; when a
file exists its contents are read and compared, and the buffer is dumped
exactly when they differ. -/
def close (w : CondWriter) (fs : FS) : CondWriter × FS × List FsOp :=
  if w.contents_written || w.output_file_path = "" then (w, fs, [])
  else
    match fs w.output_file_path with
    | none =>
      let r := dump w fs
      (r.1, r.2.1, FsOp.probe w.output_file_path :: r.2.2)
    | some old =>
      if old ≠ w.buf then
        let r := dump w fs
        (r.1, r.2.1, FsOp.probe w.output_file_path
          :: FsOp.read w.output_file_path :: r.2.2)
      else
        (w, fs, [FsOp.probe w.output_file_path, FsOp.read w.output_file_path])

/-- Embeds the destructor (t_generator.h:396-400): it calls `close` only
when `contents_written` is not yet set. -/
def destruct (w : CondWriter) (fs : FS) : CondWriter × FS × List FsOp :=
  if !w.contents_written then close w fs else (w, fs, [])

/-- The everywhere-empty filesystem, used by concrete witnesses. -/
def fsEmpty : FS := fun _ : String => none

/-! Section: Keyword set construction and identifier validation
(t_generator.h, lines 45-57 and 108-122) -/

/-- A language backend, as far as keyword handling goes:
`langKeywords` is the reserved-word set returned by the (possibly
overridden) virtual `lang_keywords()` of the fully constructed object,
and `ctorCallsUpdateKeywords` records whether the derived-class
constructor itself calls `update_keywords()` — the protocol the header
demands of backends that implement `lang_keywords()`
(t_generator.h:110-112). -/
structure GenBackend where
  langKeywords : List String
  ctorCallsUpdateKeywords : Bool

/-- Embeds the computation of the member `keywords_` during backend
construction.  The base constructor `t_generator::t_generator`
(t_generator.h:45-46) calls `update_keywords()`, i.e.
`keywords_ = lang_keywords();`; during base-class construction C++
virtual dispatch resolves `lang_keywords()` to the base
`t_generator::lang_keywords` — whose returned set is the parameter
`baseKeywords`, its body being in t_generator.cc outside this slice —
and never to the override.  A derived constructor that follows the
header and calls `update_keywords()` again then overwrites `keywords_`
with the overridden set. -/
def constructKeywords (baseKeywords : List String) (b : GenBackend) : List String :=
  if b.ctorCallsUpdateKeywords then b.langKeywords else baseKeywords

/-- Modelled from the spec: the body of `t_generator::validate_id` lives
in t_generator.cc, which is not part of this slice; per the spec a name
"must be non-empty and must not equal any string in the active keyword
set". Returns `true` when the identifier is valid. -/
def validate_id (keywords : List String) (id : String) : Bool :=
  !(id = "") && !(keywords.contains id)

/-- Modelled from the spec: `validate_input` walks every named entity of
the program and checks each identifier; `ids` is the list of all their
names. -/
def validate_input (keywords : List String) (ids : List String) : Bool :=
  ids.all (validate_id keywords)

/-- Error outcome of a generation pass. -/
inductive GenError where
  | identifierConflict
deriving DecidableEq

/-- Modelled from the spec: the phase order of `generate_program`
(t_generator.cc, outside this slice) runs `validate_input` before any
output phase, so a validation failure aborts with `IdentifierConflict`
before any file is written; `outputs` stands for the files the later
phases would produce. -/
def generate_program (keywords : List String) (ids : List String)
    (outputs : List (String × String)) : Except GenError (List (String × String)) :=
  if validate_input keywords ids then Except.ok outputs
  else Except.error GenError.identifierConflict

/-! Section: Exception generation default (t_generator.h, lines 156-159) -/

/-- The generation hooks of a backend relevant to exception generation:
the mandatory `generate_struct` and the optional override of
`generate_xception` (`none` when the backend keeps the default). -/
structure BackendHooks (α : Type) (ω : Type) where
  generate_struct : α → ω
  generate_xception_override : Option (α → ω)

/-- Embeds the virtual dispatch of `generate_xception`
(t_generator.h:156-159): an overriding backend runs its override; the
default body runs `generate_struct(txception)` on the same node. -/
def generate_xception {α ω : Type} (b : BackendHooks α ω) (x : α) : ω :=
  match b.generate_xception_override with
  | some f => f x
  | none => b.generate_struct x

/-! Section: Helper lemmas -/

/-- Lowercasing an uppercase ASCII letter yields a character that is not
uppercase. -/
theorem char_toLower_not_isUpper {c : Char} (hu : c.isUpper = true) :
    (c.toLower).isUpper = false := by
  have hb : 65 ≤ c.toNat ∧ c.toNat ≤ 90 := by
    have hu' := hu
    simp [Char.isUpper] at hu'
    obtain ⟨h1, h2⟩ := hu'
    exact ⟨UInt32.le_toNat_of_le (by decide) h1, UInt32.toNat_le_of_le (by decide) h2⟩
  have hl : c.toLower = Char.ofNat (c.toNat + 32) := by
    simp [Char.toLower]
    omega
  have hv : (c.toNat + 32).isValidChar := by
    left
    show c.toNat + 32 < 0xd800
    omega
  have ht : (c.toLower).toNat = c.toNat + 32 := by
    rw [hl, Char.ofNat, dif_pos hv]
    simp [Char.ofNatAux, Char.toNat, UInt32.toNat, UInt32.ofNat']
  simp [Char.isUpper]
  intro _
  rw [← UInt32.not_le]
  intro hle2
  have h3 : (c.toLower).val.toNat ≤ 90 :=
    UInt32.toNat_le_of_le (m := 90) (by decide) hle2
  rw [Char.toNat] at ht
  omega

/-- Equation of `underscoreSpec` on a cons cell. -/
theorem underscoreSpec_cons (c : Char) (l : List Char) :
    underscoreSpec (c :: l) =
      if c.isUpper then '_' :: c.toLower :: underscoreSpec l
      else c :: underscoreSpec l := rfl

/-- The index-passing embedding of the underscore loop agrees with the
structural description `underscoreSpec` on the part of the string not yet
scanned. -/
theorem underscoreLoop_eq (s : List Char) (i : Nat) :
    underscoreLoop s i = s.take i ++ underscoreSpec (s.drop i) := by
  induction s, i using underscoreLoop.induct with
  | case1 s i h hu ih =>
    rw [underscoreLoop, dif_pos h, dif_pos hu, ih]
    have htk : (s.take i).length = i := by
      simp [List.length_take]
      omega
    have h1 : (s.take i ++ '_' :: s[i].toLower :: s.drop (i + 1)).drop (i + 1)
        = s[i].toLower :: s.drop (i + 1) := by
      rw [List.drop_append_eq_append_drop]
      rw [List.drop_eq_nil_of_le (by omega), htk]
      simp
    have h2 : (s.take i ++ '_' :: s[i].toLower :: s.drop (i + 1)).take (i + 1)
        = s.take i ++ ['_'] := by
      rw [List.take_append_eq_append_take]
      rw [List.take_of_length_le (by omega), htk]
      simp
    rw [h1, h2, List.drop_eq_getElem_cons h]
    rw [underscoreSpec_cons, underscoreSpec_cons]
    rw [if_pos hu, if_neg (by simp [char_toLower_not_isUpper hu])]
    simp
  | case2 s i h hu ih =>
    rw [underscoreLoop, dif_pos h, dif_neg hu, ih]
    rw [List.drop_eq_getElem_cons h, underscoreSpec_cons, if_neg hu]
    rw [List.take_succ, List.getElem?_eq_getElem h, Option.toList_some, List.append_assoc]
    rfl
  | case3 s i h =>
    rw [underscoreLoop, dif_neg h]
    rw [List.take_of_length_le (by omega), List.drop_eq_nil_of_le (by omega)]
    simp [underscoreSpec]

/-- Behaviour of `underscore` on a non-empty string: the first character
is lowercased, the rest follows `underscoreSpec`. -/
theorem underscore_cons (c : Char) (rest : List Char) :
    underscore (c :: rest) = some (c.toLower :: underscoreSpec rest) := by
  rw [underscore]
  simp only [List.head?_cons, Option.map_some']
  rw [List.set_cons_zero, underscoreLoop_eq]
  simp

/-! Section: Claims -/

/-- Claim C4: for every non-empty input string, `underscore` lowercases
the first character, then scans left to right and replaces each
encountered uppercase character with an underscore followed by that
character lowercased; in particular it maps "aMultiWord" to
"a_multi_word", "CamelCase" to "camel_case" and "name" to "name". -/
theorem C4_underscore :
    (∀ (c : Char) (rest : List Char),
        underscore (c :: rest) = some (c.toLower :: underscoreSpec rest))
    ∧ underscoreStr "aMultiWord" = some "a_multi_word"
    ∧ underscoreStr "CamelCase" = some "camel_case"
    ∧ underscoreStr "name" = some "name" := by
  refine ⟨underscore_cons, ?_, ?_, ?_⟩
  · show (underscore "aMultiWord".data).map String.mk = some "a_multi_word"
    rw [show "aMultiWord".data = 'a' :: "MultiWord".data from rfl, underscore_cons]
    decide
  · show (underscore "CamelCase".data).map String.mk = some "camel_case"
    rw [show "CamelCase".data = 'C' :: "amelCase".data from rfl, underscore_cons]
    decide
  · show (underscore "name".data).map String.mk = some "name"
    rw [show "name".data = 'n' :: "ame".data from rfl, underscore_cons]
    decide

/-- Claim C5: `camelcase` scans left to right, consumes each underscore
character, uppercases the character that follows a consumed underscore
(if any), and passes every other character through unchanged; in
particular it maps "a_multi_word" to "aMultiWord" and "some_name" to
"someName". -/
theorem C5_camelcase :
    (∀ (c : Char) (rest : List Char), c ≠ '_' →
        camelcase (c :: rest) = c :: camelcase rest)
    ∧ (∀ (c : Char) (rest : List Char), c ≠ '_' →
        camelcase ('_' :: c :: rest) = c.toUpper :: camelcase rest)
    ∧ (∀ rest : List Char, camelcase ('_' :: '_' :: rest) = camelcase ('_' :: rest))
    ∧ camelcase ['_'] = []
    ∧ camelcase [] = []
    ∧ camelcaseStr "a_multi_word" = "aMultiWord"
    ∧ camelcaseStr "some_name" = "someName" := by
  refine ⟨?_, ?_, ?_, by decide, by decide, by decide, by decide⟩
  · intro c rest hc
    rw [camelcase, camelcaseGo, if_neg hc, if_neg (by simp)]
    rfl
  · intro c rest hc
    rw [camelcase, camelcaseGo, if_pos rfl, camelcaseGo, if_neg hc, if_pos rfl]
    rfl
  · intro rest
    rw [camelcase, camelcaseGo, if_pos rfl, camelcaseGo, if_pos rfl]
    rw [camelcase, camelcaseGo, if_pos rfl]

/-- Witness for claim C5 at concrete inputs. -/
theorem C5_camelcase_witness :
    ('a' : Char) ≠ '_' ∧ camelcase ['a', 'b'] = 'a' :: camelcase ['b']
    ∧ camelcase ['_', 'a'] = ['A'] :=
  ⟨by decide, C5_camelcase.1 'a' ['b'] (by decide),
   by rw [C5_camelcase.2.1 'a' [] (by decide)]; decide⟩

/-- Claim C8: when a backend does not override `generate_xception`,
generating an exception produces exactly the result of `generate_struct`
on the same node. -/
theorem C8_xception_default :
    ∀ (α ω : Type) (b : BackendHooks α ω) (x : α),
      b.generate_xception_override = none →
      generate_xception b x = b.generate_struct x := by
  intro α ω b x h
  rw [generate_xception, h]

/-- Witness for claim C8 at a concrete backend and node. -/
theorem C8_xception_default_witness :
    generate_xception (⟨fun n => n + 1, none⟩ : BackendHooks Nat Nat) 5 = 6 :=
  (C8_xception_default Nat Nat ⟨fun n => n + 1, none⟩ 5 rfl).trans rfl

/-- Claim C9: `capitalize`, `decapitalize` and `underscore` access the
first character unconditionally; on every non-empty input the access is
in bounds and the embedded error branch is unreachable (the result is
`some`), while on the empty string the access is out of bounds (the
result is `none`). -/
theorem C9_first_char_access :
    (∀ (c : Char) (rest : List Char),
        (capitalize (c :: rest)).isSome = true ∧
        (decapitalize (c :: rest)).isSome = true ∧
        (underscore (c :: rest)).isSome = true)
    ∧ capitalize [] = none ∧ decapitalize [] = none ∧ underscore [] = none := by
  exact ⟨fun c rest => ⟨rfl, rfl, rfl⟩, rfl, rfl, rfl⟩

/-- Round trip of the escape table: decoding an escaped string of special
characters recovers it. -/
theorem unescape_escape_string {s : List Char} (h : ∀ c ∈ s, c ∈ specialChars) :
    unescape (escape_string s) = s := by
  induction s with
  | nil => rfl
  | cons c rest ih =>
    have hc : c ∈ specialChars := h c (List.mem_cons_self c rest)
    have hrest : ∀ x ∈ rest, x ∈ specialChars := fun x hx => h x (List.mem_cons_of_mem _ hx)
    simp only [specialChars, List.mem_cons, List.not_mem_nil, or_false] at hc
    rcases hc with rfl | rfl | rfl | rfl | rfl <;>
      simp [escape_string, escapeChar, unescape, unescapeChar, ih hrest]

/-- Claim C3: `escape_string` maps each of the five special characters to
its two-character escape sequence; on strings built from the five special
characters it is injective and decoding recovers the input; every
character outside the table passes through unchanged. -/
theorem C3_escape_string :
    (escape_string ['\n'] = ['\\', 'n'] ∧ escape_string ['\r'] = ['\\', 'r']
      ∧ escape_string ['\t'] = ['\\', 't'] ∧ escape_string ['"'] = ['\\', '"']
      ∧ escape_string ['\\'] = ['\\', '\\'])
    ∧ (∀ s : List Char, (∀ c ∈ s, c ∈ specialChars) →
        unescape (escape_string s) = s)
    ∧ (∀ s₁ s₂ : List Char, (∀ c ∈ s₁, c ∈ specialChars) →
        (∀ c ∈ s₂, c ∈ specialChars) →
        escape_string s₁ = escape_string s₂ → s₁ = s₂)
    ∧ (∀ (c : Char) (rest : List Char), escapeChar c = none →
        escape_string (c :: rest) = c :: escape_string rest)
    ∧ (∀ c : Char, escapeChar c = none ↔ c ∉ specialChars) := by
  refine ⟨by decide, fun s h => unescape_escape_string h, ?_, ?_, ?_⟩
  · intro s₁ s₂ h1 h2 he
    have := congrArg unescape he
    rwa [unescape_escape_string h1, unescape_escape_string h2] at this
  · intro c rest h
    rw [escape_string, h]
    rfl
  · intro c
    constructor
    · intro h hc
      simp only [specialChars, List.mem_cons, List.not_mem_nil, or_false] at hc
      rcases hc with rfl | rfl | rfl | rfl | rfl <;> simp [escapeChar] at h
    · intro h
      rw [escapeChar]
      have h1 : ¬ c = '\n' := fun e => h (by simp [specialChars, e])
      have h2 : ¬ c = '\r' := fun e => h (by simp [specialChars, e])
      have h3 : ¬ c = '\t' := fun e => h (by simp [specialChars, e])
      have h4 : ¬ c = '"' := fun e => h (by simp [specialChars, e])
      have h5 : ¬ c = '\\' := fun e => h (by simp [specialChars, e])
      simp [h1, h2, h3, h4, h5]

/-- Witness for claim C3 at concrete inputs. -/
theorem C3_escape_string_witness :
    unescape (escape_string ['\n', '"', '\\']) = ['\n', '"', '\\']
    ∧ escape_string ['a', '\t'] = ['a', '\\', 't'] :=
  ⟨C3_escape_string.2.1 ['\n', '"', '\\'] (by decide),
   by rw [C3_escape_string.2.2.2.1 'a' ['\t'] (by decide)]; decide⟩

/-- `close` when the file already holds exactly the buffered contents:
the filesystem is unchanged and no write operation is performed. -/
theorem close_same_content (w : CondWriter) (fs : FS)
    (h : fs w.output_file_path = some w.buf) :
    (close w fs).2.1 = fs ∧ ∀ (p c : String), FsOp.write p c ∉ (close w fs).2.2 := by
  rw [close]
  by_cases hw : w.contents_written || w.output_file_path = ""
  · rw [if_pos hw]
    exact ⟨rfl, by simp⟩
  · rw [if_neg hw, h]
    simp

/-- `close` on a not-yet-written writer whose buffer differs from the
file (or whose file is missing) replaces the file with the buffer and
records a write. -/
theorem close_differing_content (w : CondWriter) (fs : FS)
    (h1 : w.contents_written = false) (h2 : w.output_file_path ≠ "")
    (h3 : fs w.output_file_path ≠ some w.buf) :
    (close w fs).2.1 w.output_file_path = some w.buf ∧
      FsOp.write w.output_file_path w.buf ∈ (close w fs).2.2 := by
  rw [close, if_neg (by simp [h1, h2])]
  cases hfs : fs w.output_file_path with
  | none => simp [dump]
  | some old =>
    have : old ≠ w.buf := fun e => h3 (by rw [hfs, e])
    simp [this, dump]

/-- Claim C1: on finalize, if no file exists at the target path or the
existing content differs byte-for-byte from the buffer, the buffer is
written out replacing the file; if the existing content is byte-identical
to the buffer, no write is performed and the file is left untouched;
consequently finalizing the same buffered content twice against the same
path writes at most on the first finalization. -/
theorem C1_conditional_update :
    (∀ (w : CondWriter) (fs : FS), w.contents_written = false →
        w.output_file_path ≠ "" →
        (fs w.output_file_path = none ∨ fs w.output_file_path ≠ some w.buf) →
        ((close w fs).2.1 w.output_file_path = some w.buf ∧
          FsOp.write w.output_file_path w.buf ∈ (close w fs).2.2))
    ∧ (∀ (w : CondWriter) (fs : FS), fs w.output_file_path = some w.buf →
        (close w fs).2.1 = fs ∧ ∀ (p c : String), FsOp.write p c ∉ (close w fs).2.2)
    ∧ (∀ (path buf : String) (fs : FS) (p c : String),
        FsOp.write p c ∉
          (close ⟨path, buf, false⟩ ((close ⟨path, buf, false⟩ fs).2.1)).2.2) := by
  refine ⟨?_, close_same_content, ?_⟩
  · intro w fs h1 h2 h3
    apply close_differing_content w fs h1 h2
    rcases h3 with h3 | h3
    · rw [h3]
      exact fun e => Option.noConfusion e
    · exact h3
  · intro path buf fs p c
    by_cases hsame : fs path = some buf
    · have h1 := (close_same_content ⟨path, buf, false⟩ fs hsame).1
      rw [h1]
      exact (close_same_content ⟨path, buf, false⟩ fs hsame).2 p c
    · by_cases hpath : path = ""
      · subst hpath
        rw [close, if_pos (by simp)]
        rw [close, if_pos (by simp)]
        simp
      · have hfs1 : (close ⟨path, buf, false⟩ fs).2.1 path = some buf := by
          rw [close, if_neg (by simp [hpath])]
          cases hfs : fs path with
          | none => simp [dump]
          | some old =>
            have : old ≠ buf := fun e => hsame (by rw [hfs, e])
            simp [this, dump]
        exact (close_same_content ⟨path, buf, false⟩ _ hfs1).2 p c

/-- Witness for claim C1 at concrete inputs. -/
theorem C1_conditional_update_witness :
    (close ⟨"p", "x", false⟩ fsEmpty).2.1 "p" = some "x" ∧
      FsOp.write "p" "x" ∈ (close ⟨"p", "x", false⟩ fsEmpty).2.2 :=
  C1_conditional_update.1 ⟨"p", "x", false⟩ fsEmpty rfl (by decide)
    (Or.inl rfl)

/-- Claim C10: the writer performs at most one disk write per
open/finalize cycle: once `contents_written` is set by `dump`, every
subsequent `close` — including the one triggered by the destructor —
performs no filesystem operation (no comparison, no write); and `close`
on a writer whose output path is the empty string performs no filesystem
operation at all. -/
theorem C10_at_most_one_write :
    (∀ (w : CondWriter) (fs : FS), w.contents_written = true →
        close w fs = (w, fs, []) ∧ destruct w fs = (w, fs, []))
    ∧ (∀ (w : CondWriter) (fs : FS), w.output_file_path = "" →
        close w fs = (w, fs, []))
    ∧ (∀ (w w' : CondWriter) (fs fs' : FS) (ops : List FsOp),
        dump w fs = (w', fs', ops) →
        ∀ fs2 : FS, close w' fs2 = (w', fs2, []) ∧ destruct w' fs2 = (w', fs2, [])) := by
  have hclose : ∀ (w : CondWriter) (fs : FS), w.contents_written = true →
      close w fs = (w, fs, []) := by
    intro w fs h
    rw [close, if_pos (by simp [h])]
  have hdes : ∀ (w : CondWriter) (fs : FS), w.contents_written = true →
      destruct w fs = (w, fs, []) := by
    intro w fs h
    rw [destruct, if_neg (by simp [h])]
  refine ⟨fun w fs h => ⟨hclose w fs h, hdes w fs h⟩, ?_, ?_⟩
  · intro w fs h
    rw [close, if_pos (by simp [h])]
  · intro w w' fs fs' ops hdump fs2
    have hw' : w'.contents_written = true := by
      have := congrArg (fun t => t.1.contents_written) hdump
      simpa [dump] using this.symm
    exact ⟨hclose w' fs2 hw', hdes w' fs2 hw'⟩

/-- Witness for claim C10 at concrete inputs. -/
theorem C10_at_most_one_write_witness :
    close ⟨"p", "b", true⟩ fsEmpty = (⟨"p", "b", true⟩, fsEmpty, []) :=
  (C10_at_most_one_write.1 ⟨"p", "b", true⟩ fsEmpty rfl).1

/-- Claim C2, corrected.  The original claim — that for every backend the
keyword set used by validation equals that backend's declared
reserved-word set — fails on the code: during base-class construction the
call `update_keywords()` in `t_generator::t_generator` resolves
`lang_keywords()` to the base implementation, never to the override (C++
virtual dispatch in constructors), which is why the header instructs
backends implementing `lang_keywords()` to call `update_keywords()` from
their own constructor.  Amended: the set equals the declared set exactly
for backends whose constructor calls `update_keywords()`; a backend that
overrides `lang_keywords()` without doing so validates against the base
set instead; and (modelled from the spec) validation of an identifier
fails exactly when its name is empty or equals a member of the active
set, and a validation failure aborts generation with IdentifierConflict
before any output is produced. -/
theorem C2_keywords_corrected :
    (∀ (baseKeywords : List String) (b : GenBackend),
        b.ctorCallsUpdateKeywords = true →
        constructKeywords baseKeywords b = b.langKeywords)
    ∧ (∀ (baseKeywords : List String) (b : GenBackend),
        b.ctorCallsUpdateKeywords = false →
        constructKeywords baseKeywords b = baseKeywords)
    ∧ (∀ (kws : List String) (id : String),
        validate_id kws id = false ↔ (id = "" ∨ id ∈ kws))
    ∧ (∀ (kws ids : List String) (outs : List (String × String)),
        validate_input kws ids = false →
        generate_program kws ids outs = Except.error GenError.identifierConflict) := by
  refine ⟨?_, ?_, ?_, ?_⟩
  · intro base b h
    rw [constructKeywords, if_pos h]
  · intro base b h
    rw [constructKeywords, if_neg (by simp [h])]
  · intro kws id
    simp [validate_id, List.elem_iff]
    tauto
  · intro kws ids outs h
    rw [generate_program, if_neg (by simp [h])]

/-- Counterexample to claim C2 as stated: a backend that overrides
`lang_keywords` (here declaring the reserved word "x") but does not call
`update_keywords` from its own constructor ends up validating against
the base keyword set (here empty), not against its declared set. -/
theorem C2_keywords_counterexample :
    ¬ (∀ (baseKeywords : List String) (b : GenBackend),
        constructKeywords baseKeywords b = b.langKeywords) := by
  intro h
  have h2 := h [] ⟨["x"], false⟩
  rw [constructKeywords] at h2
  simp at h2

/-- Witness for claim C2 at concrete inputs. -/
theorem C2_keywords_witness :
    constructKeywords ["kw"] ⟨["other"], true⟩ = ["other"]
    ∧ generate_program ["class"] ["class"] []
        = Except.error GenError.identifierConflict :=
  ⟨C2_keywords_corrected.1 ["kw"] ⟨["other"], true⟩ rfl,
   C2_keywords_corrected.2.2.2 ["class"] ["class"] [] (by decide)⟩

/-- `Nat.toDigitsCore` with sufficient fuel produces the significant
digits of its argument, mapped to digit characters, in front of the
accumulator. -/
theorem toDigitsCore_eq (fuel : Nat) :
    ∀ (n : Nat) (ds : List Char), n < fuel →
      Nat.toDigitsCore 10 fuel n ds = (sigDigits n).map Nat.digitChar ++ ds := by
  induction fuel with
  | zero => omega
  | succ f ih =>
    intro n ds h
    rw [Nat.toDigitsCore]
    by_cases h10 : n / 10 = 0
    · have hn : n < 10 := by omega
      simp only [h10, if_pos rfl]
      rw [sigDigits, if_pos hn]
      have : n % 10 = n := Nat.mod_eq_of_lt hn
      simp [this]
    · simp only [h10, if_neg h10]
      have hge : ¬ n < 10 := by omega
      rw [sigDigits, if_neg hge]
      rw [ih (n / 10) _ (by omega)]
      simp

/-- Every significant digit is a decimal digit. -/
theorem sigDigits_lt (n : Nat) : ∀ d ∈ sigDigits n, d < 10 := by
  induction n using Nat.strong_induction_on with
  | _ n ih =>
    rw [sigDigits]
    by_cases h : n < 10
    · simp [h]
    · rw [if_neg h]
      intro d hd
      rw [List.mem_append] at hd
      rcases hd with hd | hd
      · exact ih (n / 10) (Nat.div_lt_self (by omega) (by omega)) d hd
      · simp at hd
        omega

/-- The big-endian value of the significant digits recovers the number. -/
theorem decBE_sigDigits (n : Nat) : decBE (sigDigits n) = n := by
  induction n using Nat.strong_induction_on with
  | _ n ih =>
    rw [sigDigits]
    by_cases h : n < 10
    · simp [h, decBE]
    · rw [if_neg h]
      have hdiv := ih (n / 10) (Nat.div_lt_self (by omega) (by omega))
      rw [decBE] at hdiv ⊢
      rw [List.foldl_append, hdiv]
      simp
      omega

/-- Decoding a digit character recovers the digit. -/
theorem charVal_digitChar {d : Nat} (h : d < 10) : charVal (Nat.digitChar d) = d := by
  interval_cases d <;> rfl

/-- Folding the decoder over digit characters equals folding over the
digits. -/
theorem foldl_decode_digitChar (l : List Nat) :
    ∀ a : Nat, (∀ d ∈ l, d < 10) →
      List.foldl (fun x c => x * 10 + charVal c) a (l.map Nat.digitChar)
        = List.foldl (fun x d => x * 10 + d) a l := by
  induction l with
  | nil => intro a _; rfl
  | cons d rest ih =>
    intro a h
    simp only [List.map_cons, List.foldl_cons]
    rw [charVal_digitChar (h d (by simp))]
    exact ih _ (fun x hx => h x (by simp [hx]))

/-- The decimal decoder inverts `Nat.toDigits`. -/
theorem decodeDec_toDigits (n : Nat) : decodeDec (Nat.toDigits 10 n) = n := by
  rw [Nat.toDigits, toDigitsCore_eq (n + 1) n [] (by omega)]
  rw [List.append_nil, decodeDec]
  rw [foldl_decode_digitChar (sigDigits n) 0 (sigDigits_lt n)]
  exact decBE_sigDigits n

/-- The decimal representation of natural numbers is injective. -/
theorem nat_repr_injective {n m : Nat} (h : Nat.repr n = Nat.repr m) : n = m := by
  have h2 : Nat.toDigits 10 n = Nat.toDigits 10 m := by
    have h3 := congrArg String.data h
    simpa [Nat.repr, List.asString] using h3
  have h4 := congrArg decodeDec h2
  rwa [decodeDec_toDigits, decodeDec_toDigits] at h4

/-- Closed form of `tmpCalls`: the names are the base followed by the
successive counter values. -/
theorem tmpCalls_eq (name : String) :
    ∀ (st N : Nat),
      tmpCalls name st N = (List.range N).map (fun i => name ++ Nat.repr (st + i)) := by
  intro st N
  induction N generalizing st with
  | zero => rfl
  | succ k ih =>
    rw [tmpCalls, List.range_succ_eq_map]
    rw [ih]
    simp only [tmp, List.map_cons, List.map_map]
    rw [Nat.add_zero]
    congr 1
    apply List.map_congr_left
    intro i _
    simp only [Function.comp_apply]
    have : st + 1 + i = st + (i + 1) := by omega
    rw [this]

/-- Claim C6: calling `tmp base` N times within one generator run (the
counter starts at `tmpInit = 0`) yields N pairwise-distinct strings, the
i-th being the base concatenated with the decimal representation of i:
the counter starts at 0 and strictly increases by 1 on each call. -/
theorem C6_tmp :
    ∀ (base : String) (N : Nat),
      tmpCalls base tmpInit N = (List.range N).map (fun i => base ++ Nat.repr i)
      ∧ (tmpCalls base tmpInit N).Nodup := by
  intro base N
  have he : tmpCalls base tmpInit N = (List.range N).map (fun i => base ++ Nat.repr i) := by
    rw [tmpInit, tmpCalls_eq]
    simp
  refine ⟨he, ?_⟩
  rw [he]
  apply List.Nodup.map ?_ (List.nodup_range N)
  intro i j hij
  have hd := congrArg String.data hij
  simp only [String.data_append] at hd
  have h1 : (Nat.repr i).data = (Nat.repr j).data := List.append_cancel_left hd
  exact nat_repr_injective (String.ext h1)

end ThriftGen
